import Mathlib

/-!
Shallow embedding of the significance-determination and edge-extraction core of
`correlations/eval/parse.py` (classes `CorrelationCalcs`, `SparCCResults`,
`NaiveResults`, `BrayCurtisResults`, `MICResults`), together with theorems
settling the frozen claims about it.

Modelling conventions:
* Matrix entries are rationals (`ℚ`); an `n × n` matrix is a function
  `ℕ → ℕ → ℚ` read only at indices below `n`.  NaN p-values (claim C9) are
  modelled by `Option ℚ`, with `none` standing for NaN.
* Python 2 `round` rounds half away from zero; `round(x, 7)` is `round7`.
* Python negative indexing (`xs[-k]` reads `xs[len(xs)-k]`, and an index out of
  range raises `IndexError`) is modelled by `pyIdx`, returning `Option`.
* `numpy.unique` over the strictly-upper-triangular entries is `pyUnique`
  (sort ascending after removing duplicates).
* `numpy.ma`: a `MaskedArray` defines only `__eq__`/`__ne__`; ordering
  comparisons such as `mdata <= lb` fall through to the underlying ufunc, which
  compares the RAW data at every position and merely attaches the mask to the
  result.  `numpy.where` (imported from `numpy`, not `numpy.ma`) reads only the
  raw data of its condition and ignores the mask.  Consequently
  `where(mdata <= lb, 1, 0).nonzero()` yields EVERY matrix position whose raw
  value satisfies the comparison, including the diagonal and the lower
  triangle that the mask was prepared to exclude.  In contrast,
  `(mdata <= lb).sum()` is mask-aware and counts only unmasked (strictly
  upper-triangular) positions.  Both behaviours are embedded as such.
* `ndarray.nonzero()` enumerates positions in row-major (C) order, which
  `nonzeroIdx` reproduces.
-/

/-- Python 2 `round` to the nearest integer, halves away from zero. -/
def pyRound (q : ℚ) : ℤ :=
  if 0 ≤ q then ⌊q + 1/2⌋ else -⌊-q + 1/2⌋

/-- Python 2 `round(q, 7)`: round to seven decimal places. -/
def round7 (q : ℚ) : ℚ :=
  (pyRound (q * 10 ^ 7) : ℚ) / 10 ^ 7

/-- A rational that is exactly representable with seven decimal places, so that
the `round(value, 7)` calls in the source leave it unchanged. -/
def SevenDec (q : ℚ) : Prop :=
  (q * 10 ^ 7).den = 1

instance (q : ℚ) : Decidable (SevenDec q) := by
  unfold SevenDec; infer_instance

/-- Python list indexing `xs[i]` with negative-index wrap-around; `none` models
`IndexError`.  A float index `-0.0` becomes the integer index `0`, matching
`(-0 : ℤ) = 0`. -/
def pyIdx (l : List ℚ) (i : ℤ) : Option ℚ :=
  if 0 ≤ i then l.get? i.toNat
  else if (-i).toNat ≤ l.length then l.get? (l.length - (-i).toNat) else none

/-- Positions `(i, j)` of an `n × n` boolean array's `True` entries in
row-major order, as produced by `numpy.nonzero`. -/
def nonzeroIdx (n : ℕ) (p : ℕ → ℕ → Bool) : List (ℕ × ℕ) :=
  (List.range n).flatMap fun i =>
    ((List.range n).filter fun j => p i j).map fun j => (i, j)

/-- The strictly-upper-triangular index pairs of an `n × n` matrix in
row-major order (`numpy.triu_indices(n, 1)`). -/
def upperPairs (n : ℕ) : List (ℕ × ℕ) :=
  nonzeroIdx n fun i j => i < j

/-- The strictly-upper-triangular entries of the matrix in row-major order
(`data[triu_indices(rows, 1)]`). -/
def upperVals (n : ℕ) (d : ℕ → ℕ → ℚ) : List ℚ :=
  (upperPairs n).map fun ij => d ij.1 ij.2

/-- `numpy.unique`: the distinct values of a list, sorted ascending. -/
def pyUnique (l : List ℚ) : List ℚ :=
  l.dedup.insertionSort (· ≤ ·)

/-- A quantile bound as the Python code manipulates it: either a finite rounded
value or one of the IEEE infinities installed in the `sig_lvl == 0` branch of
`NaiveResults._getSignificantData`. -/
inductive Bnd where
  | ninf : Bnd
  | pinf : Bnd
  | fin : ℚ → Bnd
deriving DecidableEq

/-- IEEE comparison `q <= bound` for a finite `q`. -/
def bndLe (q : ℚ) : Bnd → Bool
  | .ninf => false
  | .pinf => true
  | .fin r => q ≤ r

/-- IEEE comparison `q >= bound` for a finite `q`. -/
def bndGe (q : ℚ) : Bnd → Bool
  | .ninf => true
  | .pinf => false
  | .fin r => r ≤ q

/-- `SparCCResults._getSignificantData` (parse.py lines 206-228): the selected
row/column index pairs.  `tril(10*ones((rows, cols)), 0)` adds `10` to every
entry on or below the diagonal before the `<= sig_lvl` test; with a
`pearson_filter`, the test is conjoined with `abs(triu(cdata, 1)) >=
pearson_filter`, where `triu(cdata, 1)` zeroes the diagonal and the lower
triangle. -/
def sparccSigEdges (n : ℕ) (pdata cdata : ℕ → ℕ → ℚ) (sig_lvl : ℚ)
    (pearson_filter : Option ℚ) : List (ℕ × ℕ) :=
  nonzeroIdx n fun i j =>
    let se : Bool := (if i < j then (0 : ℚ) else 10) + pdata i j ≤ sig_lvl
    match pearson_filter with
    | none => se
    | some f => se && (f ≤ |if i < j then cdata i j else 0|)

/-- `NaiveResults._getSignificantData`, non-empirical branch (parse.py lines
418-432): `tmp = (pdata <= sig_lvl)`, then `tmp[tril_indices(n, 0)] = 0`,
then `tmp.nonzero()`. -/
def naiveFixedEdges (n : ℕ) (pdata : ℕ → ℕ → ℚ) (sig_lvl : ℚ) :
    List (ℕ × ℕ) :=
  nonzeroIdx n fun i j => i < j && pdata i j ≤ sig_lvl

/-- `cvals = unique(self.cdata[triu_indices(rows, 1)])` in
`NaiveResults._getSignificantData`. -/
def naiveCvals (n : ℕ) (cdata : ℕ → ℕ → ℚ) : List ℚ :=
  pyUnique (upperVals n cdata)

/-- The lower/upper bounds of the empirical branch of
`NaiveResults._getSignificantData` (parse.py lines 387-393):
`lb = round(cvals[floor(alpha*len(cvals))], 7)`,
`ub = round(cvals[-ceil(alpha*len(cvals))], 7)`, both overridden to the
infinities when `sig_lvl == 0`.  `none` models the `IndexError` raised by the
indexing when `cvals` is empty or the index is out of range. -/
def naiveBounds (n : ℕ) (cdata : ℕ → ℕ → ℚ) (sig_lvl : ℚ) :
    Option (Bnd × Bnd) :=
  (pyIdx (naiveCvals n cdata)
      ⌊sig_lvl / 2 * ((naiveCvals n cdata).length : ℚ)⌋).bind fun lbv =>
    (pyIdx (naiveCvals n cdata)
        (-⌈sig_lvl / 2 * ((naiveCvals n cdata).length : ℚ)⌉)).map fun ubv =>
      (if sig_lvl = 0 then .ninf else .fin (round7 lbv),
       if sig_lvl = 0 then .pinf else .fin (round7 ubv))

/-- The selected index pairs of the empirical branch of
`NaiveResults._getSignificantData` (parse.py lines 405-409):
`hstack` of `where(mdata >= ub, 1, 0).nonzero()` and
`where(mdata <= lb, 1, 0).nonzero()`.  `numpy.where` ignores the mask, so the
comparisons read the raw data at every position. -/
def naiveEmpEdges (n : ℕ) (cdata : ℕ → ℕ → ℚ) (sig_lvl : ℚ) :
    Option (List (ℕ × ℕ)) :=
  (naiveBounds n cdata sig_lvl).map fun b =>
    nonzeroIdx n (fun i j => bndGe (cdata i j) b.2) ++
      nonzeroIdx n (fun i j => bndLe (cdata i j) b.1)

/-- NaN cleaning of the p-value matrix in `NaiveResults.__init__` (parse.py
lines 368-369): `self.pdata[isnan(self.pdata)] = 1`.  `none` models NaN. -/
def cleanP (pdata : ℕ → ℕ → Option ℚ) : ℕ → ℕ → ℚ :=
  fun i j => (pdata i j).getD 1

/-- NaN cleaning of the score matrix in `NaiveResults.__init__` (parse.py line
374): `self.cdata[nan_indicies] = 0.`, where `nan_indicies = isnan(pdata)`. -/
def cleanC (pdata cdata : ℕ → ℕ → Option ℚ) : ℕ → ℕ → Option ℚ :=
  fun i j => if (pdata i j).isNone then some 0 else cdata i j

/-- The lower bound of `BrayCurtisResults._getSignificantData` (parse.py line
501): `lb = round(cvals[round(sig_lvl*len(cvals))-1], 7)`. -/
def bcBoundary (n : ℕ) (data : ℕ → ℕ → ℚ) (sig_lvl : ℚ) : Option ℚ :=
  (pyIdx (pyUnique (upperVals n data))
    (pyRound (sig_lvl * ((pyUnique (upperVals n data)).length : ℚ)) - 1)).map
    round7

/-- `BrayCurtisResults._getSignificantData` (parse.py lines 481-510): the
boundary value `lb`, the mask-aware `actual_sig_lvl`
(`(mdata <= lb).sum() / float(n*(n-1)/2)`, integer division in the
denominator), and the selected index pairs
(`where(mdata <= lb, 1, 0).nonzero()`, which ignores the mask). -/
def bcGetSig (n : ℕ) (data : ℕ → ℕ → ℚ) (sig_lvl : ℚ) :
    Option (ℚ × ℚ × List (ℕ × ℕ)) :=
  (bcBoundary n data sig_lvl).map fun lb =>
    (lb,
      ((((upperPairs n).filter fun ij => data ij.1 ij.2 ≤ lb).length : ℚ)) /
        ((n * (n - 1) / 2 : ℕ) : ℚ),
      nonzeroIdx n fun i j => data i j ≤ lb)

/-- The selected index pairs of `BrayCurtisResults._getSignificantData`, `[]`
when the boundary indexing raises. -/
def bcSigEdges (n : ℕ) (data : ℕ → ℕ → ℚ) (sig_lvl : ℚ) : List (ℕ × ℕ) :=
  ((bcGetSig n data sig_lvl).map fun r => r.2.2).getD []

/-- The upper bound of `MICResults._getSignificantData` (parse.py line 554):
`ub = round(cvals[-round(sig_lvl*len(cvals))], 7)`. -/
def micBoundary (n : ℕ) (data : ℕ → ℕ → ℚ) (sig_lvl : ℚ) : Option ℚ :=
  (pyIdx (pyUnique (upperVals n data))
    (-(pyRound (sig_lvl * ((pyUnique (upperVals n data)).length : ℚ))))).map
    round7

/-- `MICResults._getSignificantData` (parse.py lines 534-563): the boundary
value `ub`, the mask-aware `actual_sig_lvl`, and the selected index pairs
(`where(mdata >= ub, 1, 0).nonzero()`, which ignores the mask). -/
def micGetSig (n : ℕ) (data : ℕ → ℕ → ℚ) (sig_lvl : ℚ) :
    Option (ℚ × ℚ × List (ℕ × ℕ)) :=
  (micBoundary n data sig_lvl).map fun ub =>
    (ub,
      ((((upperPairs n).filter fun ij => ub ≤ data ij.1 ij.2).length : ℚ)) /
        ((n * (n - 1) / 2 : ℕ) : ℚ),
      nonzeroIdx n fun i j => ub ≤ data i j)

/-- The selected index pairs of `MICResults._getSignificantData`, `[]` when
the boundary indexing raises. -/
def micSigEdges (n : ℕ) (data : ℕ → ℕ → ℚ) (sig_lvl : ℚ) : List (ℕ × ℕ) :=
  ((micGetSig n data sig_lvl).map fun r => r.2.2).getD []

/-- `BrayCurtisResults.__init__` (parse.py lines 463-472): the `sig_lvl == 0`
check comes first, before the input is even parsed into a matrix, so the
`ValueError` (the spec's `InvalidConfigError`) precedes any matrix scan. -/
def brayCurtisInit (n : ℕ) (data : ℕ → ℕ → ℚ) (sig_lvl : ℚ) :
    Except String (ℚ × ℚ × List (ℕ × ℕ)) :=
  if sig_lvl = 0 then .error "sig_lvl cannot be 0. pass sig_lvl > 0."
  else
    match bcGetSig n data sig_lvl with
    | some r => .ok r
    | none => .error "IndexError"

/-- `MICResults.__init__` (parse.py lines 516-525): the `sig_lvl == 0` check
comes first, before the input is even parsed into a matrix. -/
def micInit (n : ℕ) (data : ℕ → ℕ → ℚ) (sig_lvl : ℚ) :
    Except String (ℚ × ℚ × List (ℕ × ℕ)) :=
  if sig_lvl = 0 then .error "sig_lvl cannot be 0. pass sig_lvl > 0."
  else
    match micGetSig n data sig_lvl with
    | some r => .ok r
    | none => .error "IndexError"

/-- The fields of a `SparCCResults` object that `changeSignificance` is meant
to rebuild. -/
structure SparccState where
  n : ℕ
  pdata : ℕ → ℕ → ℚ
  cdata : ℕ → ℕ → ℚ
  sig_edges : List (ℕ × ℕ)
  pvals : List ℚ
  cvals : List ℚ

/-- `SparCCResults.changeSignificance` (parse.py lines 242-245).  Its body is
`self._getSignificantData(sig_lvl)`, but `_getSignificantData(self, sig_lvl,
pearson_filter)` has no default for `pearson_filter`, so in Python every call
raises `TypeError: _getSignificantData() takes exactly 3 arguments (2 given)`
before any recomputation happens; the `Except.error` models that. -/
def sparccChangeSignificance (st : SparccState) (sig_lvl : ℚ) :
    Except String SparccState :=
  .error "TypeError: _getSignificantData() takes exactly 3 arguments (2 given)"

/-- The fields of a `NaiveResults` object rebuilt by its `changeSignificance`
(matrices `pdata`/`cdata` plus all derived state). -/
structure NaiveState where
  n : ℕ
  otu_ids : List String
  pdata : ℕ → ℕ → ℚ
  cdata : ℕ → ℕ → ℚ
  sig_edges : List (ℕ × ℕ)
  otu1 : List String
  otu2 : List String
  sig_otus : List String
  edges : List (String × String)
  pvals : List ℚ
  cvals : List ℚ
  interactions : List String

/-- `NaiveResults.changeSignificance` (parse.py lines 448-451): rerun
`_getSignificantData(sig_lvl, empirical)` followed by
`_getLPSAndInteractions()`, rebuilding every derived field from the matrices.
`sig_otus` is `list(set(otu1 + otu2))` in the source; a Python set's iteration
order is implementation-defined, so it is modelled by the deterministic
`List.dedup` — the choice is irrelevant to the claims, which only need the
rebuild to be a function of the matrices.  `none` models the `IndexError` the
empirical branch raises on a matrix with no upper-triangular entries. -/
def naiveChangeSignificance (st : NaiveState) (sig_lvl : ℚ)
    (empirical : Bool) : Option NaiveState :=
  match (if empirical then naiveEmpEdges st.n st.cdata sig_lvl
         else some (naiveFixedEdges st.n st.pdata sig_lvl)) with
  | none => none
  | some es =>
      let o1 := es.map fun ij => st.otu_ids.getD ij.1 ""
      let o2 := es.map fun ij => st.otu_ids.getD ij.2 ""
      some { st with
        sig_edges := es
        otu1 := o1
        otu2 := o2
        sig_otus := (o1 ++ o2).dedup
        edges := o1.zip o2
        pvals := es.map fun ij => st.pdata ij.1 ij.2
        cvals := es.map fun ij => st.cdata ij.1 ij.2
        interactions := es.map fun ij =>
          if 0 ≤ st.cdata ij.1 ij.2 then "copresence" else "mutualExclusion" }

/-- Ordering used by `CorrelationCalcs.otuConnectivity`: sort by the second
component (the connection count) in descending order. -/
def degGe (x y : String × ℕ) : Prop := y.2 ≤ x.2

instance : DecidableRel degGe := fun x y => by unfold degGe; infer_instance

instance : IsTotal (String × ℕ) degGe :=
  ⟨fun x y => le_total y.2 x.2⟩

instance : IsTrans (String × ℕ) degGe :=
  ⟨fun _ _ _ h1 h2 => le_trans h2 h1⟩

/-- `CorrelationCalcs.otuConnectivity` (parse.py lines 65-70):
`sorted([(i, otu1.count(i) + otu2.count(i)) for i in nodes],
key=itemgetter(1), reverse=True)`.  Python's `sorted` is stable and
`reverse=True` preserves the order of equal keys, which is exactly a stable
descending sort — `List.insertionSort` with `degGe`. -/
def otuConnectivity (nodes otu1 otu2 : List String) : List (String × ℕ) :=
  (nodes.map fun i => (i, otu1.count i + otu2.count i)).insertionSort degGe

/-- A 5×5 symmetric dissimilarity matrix with zero diagonal whose strictly
upper triangle, in row-major order, is the spec's worked distribution
`[.1, .2, .2, .2, .2, .3, .4, .5, .6, .6]`. -/
def bcMat5 : ℕ → ℕ → ℚ := fun i j =>
  ((([[0, 1/10, 1/5, 1/5, 1/5],
      [1/10, 0, 1/5, 3/10, 2/5],
      [1/5, 1/5, 0, 1/2, 3/5],
      [1/5, 3/10, 1/2, 0, 3/5],
      [1/5, 2/5, 3/5, 3/5, 0]] : List (List ℚ)).getD i []).getD j 0)

/-- A 3×3 symmetric dissimilarity matrix with zero diagonal and upper-triangle
values `.1, .2, .3`. -/
def bcMat3 : ℕ → ℕ → ℚ := fun i j =>
  ((([[0, 1/10, 1/5],
      [1/10, 0, 3/10],
      [1/5, 3/10, 0]] : List (List ℚ)).getD i []).getD j 0)

/-- A 3×3 symmetric MIC-style matrix with unit diagonal and upper-triangle
values `.8, .4, .6`. -/
def micMat3 : ℕ → ℕ → ℚ := fun i j =>
  ((([[1, 4/5, 2/5],
      [4/5, 1, 3/5],
      [2/5, 3/5, 1]] : List (List ℚ)).getD i []).getD j 0)

/-- An example `SparccState` used to witness the `changeSignificance`
theorem. -/
def exSparcc : SparccState where
  n := 2
  pdata := fun _ _ => 0
  cdata := fun _ _ => 0
  sig_edges := []
  pvals := []
  cvals := []

/-- An example `NaiveState` (2×2 matrices, no derived state yet) used to
witness the `changeSignificance` theorem. -/
def exNaive : NaiveState where
  n := 2
  otu_ids := ["o1", "o2"]
  pdata := fun i j => if i = j then 1 else 1/100
  cdata := fun i j => if i = j then 1 else 1/2
  sig_edges := []
  otu1 := []
  otu2 := []
  sig_otus := []
  edges := []
  pvals := []
  cvals := []
  interactions := []

/-- The state produced from `exNaive` by a fixed-cutoff recompute at
`sig_lvl = 1/20`. -/
def exNaiveOut : NaiveState :=
  { exNaive with
    sig_edges := [(0, 1)]
    otu1 := ["o1"]
    otu2 := ["o2"]
    sig_otus := ["o1", "o2"]
    edges := [("o1", "o2")]
    pvals := [1/100]
    cvals := [1/2]
    interactions := ["copresence"] }

/-- An example p-value matrix used to witness the fixed-cutoff theorem. -/
def exPmat : ℕ → ℕ → ℚ := fun i j => if i < j then 1/100 else 0

/-- An example score matrix used to witness the fixed-cutoff theorem. -/
def exCmat : ℕ → ℕ → ℚ := fun _ _ => 3/5

/-- An example p-value matrix that is NaN everywhere, used to witness the NaN
theorem. -/
def exPnan : ℕ → ℕ → Option ℚ := fun _ _ => none

/-- An example score matrix used to witness the NaN theorem. -/
def exCnan : ℕ → ℕ → Option ℚ := fun _ _ => some (1/2)

/-- The lower bound exactly as the spec words it: the value of the ascending
unique score list at index `floor(alpha * m)`, with `alpha = sig_lvl / 2`. -/
def specLB (n : ℕ) (cdata : ℕ → ℕ → ℚ) (sig_lvl : ℚ) : ℚ :=
  (naiveCvals n cdata).getD
    (⌊sig_lvl / 2 * ((naiveCvals n cdata).length : ℚ)⌋).toNat 0

/-- The upper bound exactly as the spec words it: the value at position
`ceil(alpha * m)` counting from the top of the ascending unique score list. -/
def specUB (n : ℕ) (cdata : ℕ → ℕ → ℚ) (sig_lvl : ℚ) : ℚ :=
  (naiveCvals n cdata).getD
    ((naiveCvals n cdata).length -
      (⌈sig_lvl / 2 * ((naiveCvals n cdata).length : ℚ)⌉).toNat) 0

theorem mem_nonzeroIdx {n : ℕ} {p : ℕ → ℕ → Bool} {i j : ℕ} :
    (i, j) ∈ nonzeroIdx n p ↔ i < n ∧ j < n ∧ p i j = true := by
  simp only [nonzeroIdx, List.mem_flatMap, List.mem_map, List.mem_filter,
    List.mem_range, Prod.mk.injEq]
  constructor
  · rintro ⟨a, ha, b, ⟨hb, hp⟩, rfl, rfl⟩
    exact ⟨ha, hb, hp⟩
  · rintro ⟨hi, hj, hp⟩
    exact ⟨i, hi, j, ⟨hj, hp⟩, rfl, rfl⟩

theorem nonzeroIdx_eq_nil {n : ℕ} {p : ℕ → ℕ → Bool}
    (h : ∀ i j, p i j = false) : nonzeroIdx n p = [] := by
  simp [nonzeroIdx, h]

theorem mem_upperVals {n : ℕ} {d : ℕ → ℕ → ℚ} {q : ℚ} :
    q ∈ upperVals n d ↔ ∃ i j, i < j ∧ j < n ∧ d i j = q := by
  simp only [upperVals, upperPairs, List.mem_map]
  constructor
  · rintro ⟨⟨i, j⟩, hm, rfl⟩
    have h := mem_nonzeroIdx.1 hm
    exact ⟨i, j, by simpa using h.2.2, h.2.1, rfl⟩
  · rintro ⟨i, j, hij, hj, rfl⟩
    exact ⟨(i, j), mem_nonzeroIdx.2 ⟨lt_trans hij hj, hj, by simpa using hij⟩,
      rfl⟩

theorem mem_pyUnique {l : List ℚ} {q : ℚ} : q ∈ pyUnique l ↔ q ∈ l := by
  simp [pyUnique, List.mem_insertionSort, List.mem_dedup]

theorem sorted_pyUnique (l : List ℚ) : (pyUnique l).Sorted (· ≤ ·) :=
  List.sorted_insertionSort _ _

theorem getD_last_mem {l : List ℚ} (h : l ≠ []) :
    l.getD (l.length - 1) 0 ∈ l := by
  have hlen : l.length - 1 < l.length := by
    have := List.length_pos.2 h
    omega
  have he : l.getD (l.length - 1) 0 = l.getLast h := by
    rw [List.getLast_eq_getElem, List.getD_eq_getElem?_getD,
      List.getElem?_eq_getElem hlen]
    rfl
  rw [he]
  exact List.getLast_mem h

theorem sorted_le_last {l : List ℚ} (h : l.Sorted (· ≤ ·)) {a : ℚ}
    (ha : a ∈ l) : a ≤ l.getD (l.length - 1) 0 := by
  induction l with
  | nil => cases ha
  | cons b t ih =>
    cases t with
    | nil =>
        rcases List.mem_cons.1 ha with rfl | hf
        · simp [List.getD]
        · cases hf
    | cons c u =>
        have h' := List.sorted_cons.1 h
        have hstep : (b :: c :: u).getD ((b :: c :: u).length - 1) 0 =
            (c :: u).getD ((c :: u).length - 1) 0 := by
          simp [List.getD]
        rcases List.mem_cons.1 ha with rfl | ht
        · rw [hstep]
          exact h'.1 _ (getD_last_mem (by simp))
        · rw [hstep]
          exact ih h'.2 ht

theorem sorted_head_le {l : List ℚ} (h : l.Sorted (· ≤ ·)) {a : ℚ}
    (ha : a ∈ l) : l.head?.getD 0 ≤ a := by
  cases l with
  | nil => cases ha
  | cons b t =>
    rcases List.mem_cons.1 ha with rfl | ht
    · simp
    · simpa using (List.sorted_cons.1 h).1 a ht

theorem round7_eq_self {q : ℚ} (h : SevenDec q) : round7 q = q := by
  have hq : ((q * 10 ^ 7).num : ℚ) = q * 10 ^ 7 := by
    conv_rhs => rw [← Rat.num_div_den (q * 10 ^ 7)]
    rw [h]
    simp
  have hint : ∀ m : ℤ, pyRound ((m : ℤ) : ℚ) = m := by
    intro m
    unfold pyRound
    split_ifs with hpos
    · rw [Int.floor_int_add]
      norm_num
    · rw [show -((m : ℤ) : ℚ) = ((-m : ℤ) : ℚ) by push_cast; ring,
        Int.floor_int_add]
      norm_num
  have : pyRound (q * 10 ^ 7) = (q * 10 ^ 7).num := by
    conv_lhs => rw [← hq]
    exact hint _
  unfold round7
  rw [this, hq]
  field_simp

theorem pyIdx_nonneg {l : List ℚ} {i : ℤ} (h0 : 0 ≤ i)
    (h : i.toNat < l.length) : pyIdx l i = some (l.getD i.toNat 0) := by
  unfold pyIdx
  rw [if_pos h0, List.getD_eq_getElem?_getD, List.get?_eq_getElem?,
    List.getElem?_eq_getElem h]
  rfl

theorem pyIdx_neg {l : List ℚ} {k : ℕ} (h1 : 1 ≤ k) (h2 : k ≤ l.length) :
    pyIdx l (-(k : ℤ)) = some (l.getD (l.length - k) 0) := by
  unfold pyIdx
  have hneg : ¬(0 : ℤ) ≤ -(k : ℤ) := by omega
  have hk : (- -(k : ℤ)).toNat = k := by simp
  rw [if_neg hneg, hk, if_pos h2]
  have hlt : l.length - k < l.length := by omega
  rw [List.getD_eq_getElem?_getD, List.get?_eq_getElem?,
    List.getElem?_eq_getElem hlt]
  rfl

theorem filter_orderedInsert (a : String × ℕ) (l : List (String × ℕ)) (d : ℕ) :
    ((l.orderedInsert degGe a).filter fun x => x.2 == d) =
      if a.2 = d then a :: l.filter (fun x => x.2 == d)
      else l.filter fun x => x.2 == d := by
  rw [List.orderedInsert_eq_take_drop, List.filter_append]
  have htake : ((l.takeWhile fun b => decide ¬degGe a b).filter
      fun x => x.2 == d) = [] ∨ a.2 ≠ d := by
    by_cases had : a.2 = d
    · left
      rw [List.filter_eq_nil_iff]
      intro x hx
      have := List.mem_takeWhile_imp hx
      simp only [decide_not, Bool.not_eq_true', decide_eq_false_iff_not,
        degGe] at this
      simp only [beq_iff_eq]
      omega
    · right
      exact had
  by_cases had : a.2 = d
  · rcases htake with ht | ht
    · rw [ht, if_pos had, List.filter_cons]
      have : (a.2 == d) = true := by simpa using had
      rw [if_pos (by simpa using had)]
      conv_rhs =>
        rw [← List.takeWhile_append_dropWhile
          (p := fun b => decide ¬degGe a b) (l := l)]
      rw [List.filter_append, ht]
      rfl
    · exact absurd had ht
  · rw [if_neg had, List.filter_cons, if_neg (by simpa using had)]
    conv_rhs =>
      rw [← List.takeWhile_append_dropWhile
        (p := fun b => decide ¬degGe a b) (l := l)]
    rw [List.filter_append]

theorem filter_insertionSort (l : List (String × ℕ)) (d : ℕ) :
    ((l.insertionSort degGe).filter fun x => x.2 == d) =
      l.filter fun x => x.2 == d := by
  induction l with
  | nil => rfl
  | cons a t ih =>
    by_cases h : a.2 = d <;>
      simp [List.insertionSort, filter_orderedInsert, h, ih, List.filter_cons]

/-- C1: evaluation of `BrayCurtisResults._getSignificantData` on the spec's
worked distribution `[.1,.2,.2,.2,.2,.3,.4,.5,.6,.6]` at `sig_lvl = 0.2`.
The claim says the boundary value is `0.2`, the five pairs with score `<= 0.2`
are selected and `actual_sig_lvl` exceeds `0.2`.  The code instead dedups the
distribution (`unique`) to `[.1,.2,.3,.4,.5,.6]` (`m = 6`), takes the boundary
`cvals[round(0.2*6)-1] = cvals[0] = 0.1`, reports `actual_sig_lvl = 0.1`, and
its `where`-based selection also emits the diagonal and the mirrored lower
position, because `numpy.where` ignores the mask. -/
theorem brayCurtis_worked_distribution_eval :
    bcGetSig 5 bcMat5 (1/5) =
      some (1/10, 1/10, [(0,0), (0,1), (1,0), (1,1), (2,2), (3,3), (4,4)]) := by
  with_unfolding_all decide

/-- C3: evaluation of `MICResults._getSignificantData` on a 3×3 symmetric
matrix with upper-triangle values `{.8, .4, .6}` at `sig_lvl = 0.5`.  The
boundary is `cvals[-round(0.5*3)] = cvals[-2] = 0.6` (position
`round(sig_lvl*m)` from the top, as the claim states) and the mask-aware
`actual_sig_lvl` is `2/3`; but the selected pairs are not exactly the
upper-triangular pairs with score `>= 0.6`: the diagonal and the mirrored
lower positions are also emitted, because `numpy.where` ignores the mask. -/
theorem mic_upper_tail_eval :
    micGetSig 3 micMat3 (1/2) =
      some (3/5, 2/3, [(0,0), (0,1), (1,0), (1,1), (1,2), (2,1), (2,2)]) := by
  with_unfolding_all decide

/-- C5: both one-tailed constructors (`BrayCurtisResults.__init__`,
`MICResults.__init__`) fail with the zero-significance `ValueError` (the
spec's `InvalidConfigError`) when `sig_lvl == 0`, for every input matrix —
including degenerate ones on which the subsequent matrix scan would itself
raise — because the check is the first statement of the constructor. -/
theorem one_tailed_zero_sig_lvl_errors :
    (∀ (n : ℕ) (d : ℕ → ℕ → ℚ),
        brayCurtisInit n d 0 =
          .error "sig_lvl cannot be 0. pass sig_lvl > 0.") ∧
    (∀ (n : ℕ) (d : ℕ → ℕ → ℚ),
        micInit n d 0 =
          .error "sig_lvl cannot be 0. pass sig_lvl > 0.") := by
  exact ⟨fun n d => rfl, fun n d => rfl⟩

/-- C6: evaluation of the BrayCurtis quantile extractor on a 3×3 symmetric
matrix at `sig_lvl = 0.5`.  The fixed-cutoff extractors do satisfy the
claimed invariant (see the fixed-cutoff theorem), but the quantile extractors
do not: here the boundary is `0.2` and the emitted pair list contains the
self-pair `(0,0)` and both orders `(0,1)` and `(1,0)` of one unordered pair,
because `numpy.where` ignores the lower-triangle mask. -/
theorem quantile_extractor_emits_self_and_mirror_pairs :
    bcGetSig 3 bcMat3 (1/2) =
      some (1/5, 2/3, [(0,0), (0,1), (0,2), (1,0), (1,1), (2,0), (2,2)]) ∧
    (0,0) ∈ bcSigEdges 3 bcMat3 (1/2) ∧
    (0,1) ∈ bcSigEdges 3 bcMat3 (1/2) ∧
    (1,0) ∈ bcSigEdges 3 bcMat3 (1/2) := by
  with_unfolding_all decide

/-- C7: `SparCCResults.changeSignificance` never rebuilds anything — it calls
`_getSignificantData(sig_lvl)` without the required `pearson_filter` argument
and so raises `TypeError` on every call — while `NaiveResults.
changeSignificance` does satisfy the claimed contract: it rebuilds all derived
fields from the unchanged matrices (`n`, `pdata`, `cdata` are not mutated),
and recomputing a second time at the same significance level returns the same
state. -/
theorem changeSignificance_rebuild_contract :
    (∀ (st : SparccState) (sig_lvl : ℚ),
        sparccChangeSignificance st sig_lvl =
          .error
            "TypeError: _getSignificantData() takes exactly 3 arguments (2 given)") ∧
    (∀ (st : NaiveState) (sig_lvl : ℚ) (empirical : Bool) (st' : NaiveState),
        naiveChangeSignificance st sig_lvl empirical = some st' →
          st'.n = st.n ∧ st'.pdata = st.pdata ∧ st'.cdata = st.cdata ∧
            naiveChangeSignificance st' sig_lvl empirical = some st') := by
  constructor
  · intro st sig_lvl
    rfl
  · intro st sig_lvl empirical st' h
    unfold naiveChangeSignificance at h ⊢
    cases he : (if empirical then naiveEmpEdges st.n st.cdata sig_lvl
        else some (naiveFixedEdges st.n st.pdata sig_lvl)) with
    | none => rw [he] at h; cases h
    | some es =>
      rw [he] at h
      injection h with h
      subst h
      refine ⟨rfl, rfl, rfl, ?_⟩
      rw [he]

theorem changeSignificance_rebuild_contract_witness :
    sparccChangeSignificance exSparcc (1/20) =
      .error
        "TypeError: _getSignificantData() takes exactly 3 arguments (2 given)" ∧
    (exNaiveOut.n = exNaive.n ∧ exNaiveOut.pdata = exNaive.pdata ∧
      exNaiveOut.cdata = exNaive.cdata ∧
      naiveChangeSignificance exNaiveOut (1/20) false = some exNaiveOut) :=
  ⟨changeSignificance_rebuild_contract.1 exSparcc (1/20),
   changeSignificance_rebuild_contract.2 exNaive (1/20) false exNaiveOut
     (by with_unfolding_all rfl)⟩

/-- C4: the fixed-cutoff extractors.  For `SparCCResults._getSignificantData`
(assuming non-negative p-value entries and `sig_lvl < 10`, so that the
`tril(10*ones)` sentinel really excludes the diagonal and lower triangle) the
selected pairs are exactly the `i < j` with `pvalue[i][j] <= sig_lvl`, further
requiring `abs(score[i][j]) >= pearson_filter` when a magnitude filter is
supplied (logical AND); for the non-empirical branch of
`NaiveResults._getSignificantData` the same holds unconditionally, with no
magnitude filter. -/
theorem fixed_cutoff_selection (n : ℕ) (pdata cdata : ℕ → ℕ → ℚ)
    (sig_lvl : ℚ) (pearson_filter : Option ℚ)
    (hp : ∀ i ∈ List.range n, ∀ j ∈ List.range n, 0 ≤ pdata i j)
    (hs : sig_lvl < 10) :
    (∀ i ∈ List.range n, ∀ j ∈ List.range n,
        ((i, j) ∈ sparccSigEdges n pdata cdata sig_lvl pearson_filter ↔
          (i < j ∧ pdata i j ≤ sig_lvl ∧
            ∀ f, pearson_filter = some f → f ≤ |cdata i j|))) ∧
    (∀ i ∈ List.range n, ∀ j ∈ List.range n,
        ((i, j) ∈ naiveFixedEdges n pdata sig_lvl ↔
          (i < j ∧ pdata i j ≤ sig_lvl))) := by
  constructor
  · intro i hi j hj
    have hi' := List.mem_range.1 hi
    have hj' := List.mem_range.1 hj
    have hpij := hp i hi j hj
    unfold sparccSigEdges
    rw [mem_nonzeroIdx]
    rcases pearson_filter with _ | f
    · simp only [decide_eq_true_eq]
      constructor
      · rintro ⟨-, -, hpred⟩
        by_cases hij : i < j
        · rw [if_pos hij] at hpred
          exact ⟨hij, by linarith, fun f hf => by cases hf⟩
        · rw [if_neg hij] at hpred
          linarith
      · rintro ⟨hij, hple, -⟩
        exact ⟨hi', hj', by rw [if_pos hij]; linarith⟩
    · simp only [Bool.and_eq_true, decide_eq_true_eq]
      constructor
      · rintro ⟨-, -, hpred, hfilt⟩
        by_cases hij : i < j
        · rw [if_pos hij] at hpred
          rw [if_pos hij] at hfilt
          exact ⟨hij, by linarith, fun g hg => by cases hg; exact hfilt⟩
        · rw [if_neg hij] at hpred
          linarith
      · rintro ⟨hij, hple, hfilt⟩
        refine ⟨hi', hj', ?_, ?_⟩
        · rw [if_pos hij]; linarith
        · rw [if_pos hij]; exact hfilt f rfl
  · intro i hi j hj
    have hi' := List.mem_range.1 hi
    have hj' := List.mem_range.1 hj
    unfold naiveFixedEdges
    rw [mem_nonzeroIdx]
    simp only [Bool.and_eq_true, decide_eq_true_eq]
    constructor
    · rintro ⟨-, -, hij, hple⟩
      exact ⟨hij, hple⟩
    · rintro ⟨hij, hple⟩
      exact ⟨hi', hj', hij, hple⟩

theorem fixed_cutoff_selection_witness :
    (0, 1) ∈ sparccSigEdges 2 exPmat exCmat (1/20) (some (1/2)) ↔
      (0 < 1 ∧ exPmat 0 1 ≤ 1/20 ∧
        ∀ f, (some (1/2) : Option ℚ) = some f → f ≤ |exCmat 0 1|) :=
  (fixed_cutoff_selection 2 exPmat exCmat (1/20) (some (1/2))
      (by with_unfolding_all decide) (by with_unfolding_all decide)).1
    0 (by decide) 1 (by decide)

/-- C9: in `NaiveResults.__init__`, a NaN p-value entry is replaced by
p-value `1` and score `0` before any significance testing, so under the
fixed cutoff such an upper-triangular pair is selected iff `sig_lvl >= 1`;
in particular for every `sig_lvl < 1` it is never in the edge set. -/
theorem nan_pvalue_selection (n : ℕ) (pdata cdata : ℕ → ℕ → Option ℚ)
    (sig_lvl : ℚ) (i j : ℕ) (hij : i < j) (hjn : j < n)
    (hnan : pdata i j = none) :
    cleanP pdata i j = 1 ∧ cleanC pdata cdata i j = some 0 ∧
      ((i, j) ∈ naiveFixedEdges n (cleanP pdata) sig_lvl ↔ 1 ≤ sig_lvl) := by
  have h1 : cleanP pdata i j = 1 := by rw [cleanP, hnan]; rfl
  refine ⟨h1, by rw [cleanC, hnan]; rfl, ?_⟩
  unfold naiveFixedEdges
  rw [mem_nonzeroIdx]
  simp only [Bool.and_eq_true, decide_eq_true_eq, h1]
  constructor
  · rintro ⟨-, -, -, hle⟩
    exact hle
  · intro hle
    exact ⟨lt_trans hij hjn, hjn, hij, hle⟩

theorem nan_pvalue_selection_witness :
    cleanP exPnan 0 1 = 1 ∧ cleanC exPnan exCnan 0 1 = some 0 ∧
      ((0, 1) ∈ naiveFixedEdges 2 (cleanP exPnan) (1/2) ↔ 1 ≤ (1/2 : ℚ)) :=
  nan_pvalue_selection 2 exPnan exCnan (1/2) 0 1 (by decide) (by decide) rfl

theorem getD_mem_of_lt {l : List ℚ} {k : ℕ} (h : k < l.length) :
    l.getD k 0 ∈ l := by
  rw [List.getD_eq_getElem?_getD, List.getElem?_eq_getElem h]
  exact List.getElem_mem h

theorem getD_zero_eq_head (l : List ℚ) : l.getD 0 0 = l.head?.getD 0 := by
  cases l <;> rfl

/-- C8: `CorrelationCalcs.otuConnectivity` returns the nodes paired with their
degrees (`otu1.count + otu2.count`), as a permutation of the node list,
ordered by degree descending, and stably: for each degree value the pairs
with that degree appear in the same relative order as in the node list.
On the concrete edge set where A has degree 3, B degree 1 and C degree 2 it
returns `[(A,3), (C,2), (B,1)]`. -/
theorem otuConnectivity_spec :
    (∀ (nodes otu1 otu2 : List String),
        (otuConnectivity nodes otu1 otu2).Perm
            (nodes.map fun i => (i, otu1.count i + otu2.count i)) ∧
          List.Sorted degGe (otuConnectivity nodes otu1 otu2) ∧
          ∀ d : ℕ,
            ((otuConnectivity nodes otu1 otu2).filter fun x => x.2 == d) =
              ((nodes.map fun i => (i, otu1.count i + otu2.count i)).filter
                fun x => x.2 == d)) ∧
    otuConnectivity ["A", "B", "C"] ["A", "A", "C"] ["B", "C", "A"] =
      [("A", 3), ("C", 2), ("B", 1)] := by
  constructor
  · intro nodes otu1 otu2
    exact ⟨List.perm_insertionSort _ _, List.sorted_insertionSort _ _,
      fun d => filter_insertionSort _ d⟩
  · decide

/-- C2: the empirical (two-tailed) branch of
`NaiveResults._getSignificantData`.  When `0 < sig_lvl <= 1` and the matrix
entries are exactly representable with seven decimals, the bounds are the
unique-value at ascending index `floor(alpha*m)` and the value at position
`ceil(alpha*m)` from the top, and an upper-triangular pair is selected iff its
score is `<=` the lower bound or `>=` the upper bound.  When `sig_lvl = 0`
the bounds become the infinities and the edge set is empty, whatever the
matrix holds. -/
theorem naive_empirical_two_tailed (n : ℕ) (cdata : ℕ → ℕ → ℚ)
    (sig_lvl : ℚ) :
    (naiveCvals n cdata ≠ [] → 0 < sig_lvl → sig_lvl ≤ 1 →
      (∀ i ∈ List.range n, ∀ j ∈ List.range n, i < j → SevenDec (cdata i j)) →
      naiveBounds n cdata sig_lvl =
          some (.fin (specLB n cdata sig_lvl), .fin (specUB n cdata sig_lvl)) ∧
        ∀ i ∈ List.range n, ∀ j ∈ List.range n, i < j →
          ((i, j) ∈ (naiveEmpEdges n cdata sig_lvl).getD [] ↔
            (cdata i j ≤ specLB n cdata sig_lvl ∨
              specUB n cdata sig_lvl ≤ cdata i j))) ∧
    (naiveCvals n cdata ≠ [] →
      naiveBounds n cdata 0 = some (.ninf, .pinf) ∧
      naiveEmpEdges n cdata 0 = some []) := by
  have hsev : ∀ (_ : ∀ i ∈ List.range n, ∀ j ∈ List.range n, i < j →
      SevenDec (cdata i j)), ∀ q ∈ naiveCvals n cdata, SevenDec q := by
    intro h7 q hq
    rw [naiveCvals, mem_pyUnique, mem_upperVals] at hq
    obtain ⟨i, j, hij, hjn, rfl⟩ := hq
    exact h7 i (List.mem_range.2 (lt_trans hij hjn)) j (List.mem_range.2 hjn)
      hij
  constructor
  · intro hne h0 h1 h7
    have hm : 0 < (naiveCvals n cdata).length := List.length_pos.2 hne
    have hmq : (1 : ℚ) ≤ ((naiveCvals n cdata).length : ℚ) := by
      exact_mod_cast hm
    have hfl0 : (0 : ℤ) ≤ ⌊sig_lvl / 2 * ((naiveCvals n cdata).length : ℚ)⌋ :=
      Int.floor_nonneg.2 (by positivity)
    have hflt : (⌊sig_lvl / 2 * ((naiveCvals n cdata).length : ℚ)⌋).toNat <
        (naiveCvals n cdata).length := by
      have hlt : ⌊sig_lvl / 2 * ((naiveCvals n cdata).length : ℚ)⌋ <
          ((naiveCvals n cdata).length : ℤ) := by
        apply Int.floor_lt.2
        push_cast
        nlinarith
      omega
    have hc1 : (1 : ℤ) ≤ ⌈sig_lvl / 2 * ((naiveCvals n cdata).length : ℚ)⌉ :=
      Int.ceil_pos.2 (by positivity)
    have hcm : ⌈sig_lvl / 2 * ((naiveCvals n cdata).length : ℚ)⌉ ≤
        ((naiveCvals n cdata).length : ℤ) := by
      apply Int.ceil_le.2
      push_cast
      nlinarith
    have hlbidx := pyIdx_nonneg (l := naiveCvals n cdata) hfl0 hflt
    have hubidx : pyIdx (naiveCvals n cdata)
        (-⌈sig_lvl / 2 * ((naiveCvals n cdata).length : ℚ)⌉) =
        some (specUB n cdata sig_lvl) := by
      have hcast : ⌈sig_lvl / 2 * ((naiveCvals n cdata).length : ℚ)⌉ =
          (((⌈sig_lvl / 2 * ((naiveCvals n cdata).length : ℚ)⌉).toNat : ℕ) :
            ℤ) := (Int.toNat_of_nonneg (by omega)).symm
      rw [hcast]
      exact pyIdx_neg (by omega) (by omega)
    have hlbmem : specLB n cdata sig_lvl ∈ naiveCvals n cdata :=
      getD_mem_of_lt hflt
    have hubmem : specUB n cdata sig_lvl ∈ naiveCvals n cdata := by
      apply getD_mem_of_lt
      omega
    have hlb7 : round7 (specLB n cdata sig_lvl) = specLB n cdata sig_lvl :=
      round7_eq_self (hsev h7 _ hlbmem)
    have hub7 : round7 (specUB n cdata sig_lvl) = specUB n cdata sig_lvl :=
      round7_eq_self (hsev h7 _ hubmem)
    have hsne : ¬sig_lvl = 0 := by linarith
    have hbounds : naiveBounds n cdata sig_lvl =
        some (.fin (specLB n cdata sig_lvl),
          .fin (specUB n cdata sig_lvl)) := by
      rw [naiveBounds, hlbidx, hubidx, Option.some_bind, Option.map_some']
      rw [if_neg hsne, if_neg hsne]
      rw [specLB] at hlb7
      rw [hlb7, hub7]
      rfl
    refine ⟨hbounds, ?_⟩
    intro i hi j hj hij
    have hi' := List.mem_range.1 hi
    have hj' := List.mem_range.1 hj
    rw [naiveEmpEdges, hbounds, Option.map_some', Option.getD_some]
    rw [List.mem_append, mem_nonzeroIdx, mem_nonzeroIdx]
    rw [bndGe, bndLe]
    simp only [decide_eq_true_eq]
    constructor
    · rintro (⟨-, -, hge⟩ | ⟨-, -, hle⟩)
      · exact Or.inr hge
      · exact Or.inl hle
    · rintro (hle | hge)
      · exact Or.inr ⟨hi', hj', hle⟩
      · exact Or.inl ⟨hi', hj', hge⟩
  · intro hne
    have hm : 0 < (naiveCvals n cdata).length := List.length_pos.2 hne
    have h0idx := pyIdx_nonneg (l := naiveCvals n cdata) (i := 0) le_rfl
      (by simpa using hm)
    have hzf : ⌊(0 : ℚ) / 2 * ((naiveCvals n cdata).length : ℚ)⌋ = 0 := by
      rw [show ((0 : ℚ) / 2 * ((naiveCvals n cdata).length : ℚ)) = 0 by ring]
      exact Int.floor_zero
    have hzc : ⌈(0 : ℚ) / 2 * ((naiveCvals n cdata).length : ℚ)⌉ = 0 := by
      rw [show ((0 : ℚ) / 2 * ((naiveCvals n cdata).length : ℚ)) = 0 by ring]
      exact Int.ceil_zero
    have hbounds : naiveBounds n cdata 0 = some (.ninf, .pinf) := by
      rw [naiveBounds, hzf, hzc, show (-(0 : ℤ)) = 0 by ring, h0idx,
        Option.some_bind, Option.map_some', if_pos rfl, if_pos rfl]
    refine ⟨hbounds, ?_⟩
    rw [naiveEmpEdges, hbounds, Option.map_some']
    rw [nonzeroIdx_eq_nil (p := fun i j => bndGe (cdata i j) Bnd.pinf)
        (fun i j => rfl),
      nonzeroIdx_eq_nil (p := fun i j => bndLe (cdata i j) Bnd.ninf)
        (fun i j => rfl)]
    rfl

theorem naive_empirical_two_tailed_witness :
    naiveBounds 3 bcMat3 (1/2) =
        some (.fin (specLB 3 bcMat3 (1/2)), .fin (specUB 3 bcMat3 (1/2))) ∧
      ((0, 1) ∈ (naiveEmpEdges 3 bcMat3 (1/2)).getD [] ↔
        (bcMat3 0 1 ≤ specLB 3 bcMat3 (1/2) ∨
          specUB 3 bcMat3 (1/2) ≤ bcMat3 0 1)) := by
  have h := (naive_empirical_two_tailed 3 bcMat3 (1/2)).1
    (by with_unfolding_all decide) (by with_unfolding_all decide)
    (by with_unfolding_all decide) (by with_unfolding_all decide)
  exact ⟨h.1, h.2 0 (by decide) 1 (by decide) (by decide)⟩

/-- C10: in the one-tailed strategies, when `round(sig_lvl * m) = 0` with
`sig_lvl > 0` the boundary index wraps around: the lower-tail
(`BrayCurtisResults`) index `round(..)-1 = -1` selects the largest unique
value, so every upper-triangular pair satisfies `score <= boundary`; the
upper-tail (`MICResults`) index `-0 = 0` selects the smallest unique value, so
every upper-triangular pair satisfies `score >= boundary` — in both cases all
upper-triangular pairs are selected despite the small requested fraction. -/
theorem small_fraction_selects_all (n : ℕ) (d : ℕ → ℕ → ℚ) (sig_lvl : ℚ)
    (hne : pyUnique (upperVals n d) ≠ [])
    (h0 : 0 < sig_lvl)
    (hr : pyRound (sig_lvl * ((pyUnique (upperVals n d)).length : ℚ)) = 0)
    (h7 : ∀ i ∈ List.range n, ∀ j ∈ List.range n, i < j → SevenDec (d i j)) :
    bcBoundary n d sig_lvl =
        some ((pyUnique (upperVals n d)).getD
          ((pyUnique (upperVals n d)).length - 1) 0) ∧
      micBoundary n d sig_lvl =
        some ((pyUnique (upperVals n d)).getD 0 0) ∧
      ∀ i ∈ List.range n, ∀ j ∈ List.range n, i < j →
        ((i, j) ∈ bcSigEdges n d sig_lvl ∧ (i, j) ∈ micSigEdges n d sig_lvl) := by
  have hm : 0 < (pyUnique (upperVals n d)).length := List.length_pos.2 hne
  have hsev : ∀ q ∈ pyUnique (upperVals n d), SevenDec q := by
    intro q hq
    rw [mem_pyUnique, mem_upperVals] at hq
    obtain ⟨i, j, hij, hjn, rfl⟩ := hq
    exact h7 i (List.mem_range.2 (lt_trans hij hjn)) j (List.mem_range.2 hjn)
      hij
  have hlastmem : (pyUnique (upperVals n d)).getD
      ((pyUnique (upperVals n d)).length - 1) 0 ∈ pyUnique (upperVals n d) :=
    getD_mem_of_lt (by omega)
  have hheadmem : (pyUnique (upperVals n d)).getD 0 0 ∈
      pyUnique (upperVals n d) := getD_mem_of_lt hm
  have hbcb : bcBoundary n d sig_lvl =
      some ((pyUnique (upperVals n d)).getD
        ((pyUnique (upperVals n d)).length - 1) 0) := by
    rw [bcBoundary, hr]
    rw [show ((0 : ℤ) - 1) = -((1 : ℕ) : ℤ) by ring]
    rw [pyIdx_neg le_rfl hm, Option.map_some',
      round7_eq_self (hsev _ hlastmem)]
  have hmicb : micBoundary n d sig_lvl =
      some ((pyUnique (upperVals n d)).getD 0 0) := by
    rw [micBoundary, hr]
    rw [show (-(0 : ℤ)) = 0 by ring]
    rw [pyIdx_nonneg le_rfl (by simpa using hm), Option.map_some',
      Int.toNat_zero, round7_eq_self (hsev _ hheadmem)]
  refine ⟨hbcb, hmicb, ?_⟩
  intro i hi j hj hij
  have hi' := List.mem_range.1 hi
  have hj' := List.mem_range.1 hj
  have hdmem : d i j ∈ pyUnique (upperVals n d) := by
    rw [mem_pyUnique, mem_upperVals]
    exact ⟨i, j, hij, hj', rfl⟩
  constructor
  · rw [bcSigEdges, bcGetSig, hbcb, Option.map_some', Option.map_some',
      Option.getD_some, mem_nonzeroIdx]
    refine ⟨hi', hj', ?_⟩
    simp only [decide_eq_true_eq]
    exact sorted_le_last (sorted_pyUnique _) hdmem
  · rw [micSigEdges, micGetSig, hmicb, Option.map_some', Option.map_some',
      Option.getD_some, mem_nonzeroIdx]
    refine ⟨hi', hj', ?_⟩
    simp only [decide_eq_true_eq]
    rw [getD_zero_eq_head]
    exact sorted_head_le (sorted_pyUnique _) hdmem

theorem small_fraction_selects_all_witness :
    (bcBoundary 3 bcMat3 (1/10) =
        some ((pyUnique (upperVals 3 bcMat3)).getD
          ((pyUnique (upperVals 3 bcMat3)).length - 1) 0) ∧
      micBoundary 3 bcMat3 (1/10) =
        some ((pyUnique (upperVals 3 bcMat3)).getD 0 0)) ∧
    ((0, 1) ∈ bcSigEdges 3 bcMat3 (1/10) ∧
      (0, 1) ∈ micSigEdges 3 bcMat3 (1/10)) := by
  have h := small_fraction_selects_all 3 bcMat3 (1/10)
    (by with_unfolding_all decide) (by with_unfolding_all decide)
    (by with_unfolding_all decide) (by with_unfolding_all decide)
  exact ⟨⟨h.1, h.2.1⟩, h.2.2 0 (by decide) 1 (by decide) (by decide)⟩
